import Mathlib

/-!
Verification of the stock-matrix indicator and persistence pipeline.

The definitions below are a shallow embedding of the Python sources:
 - stock_metadata_fetcher.py (price parsing, lookback filtering, Bollinger
   position, MACD cross signal, KDJ recursion),
 - simple_postgres_models.py (save_technical_data and the batch upsert),
 - database_init.py (the per-symbol batch loop and store write ordering).
Prices and indicator values are modelled as rationals; a NaN float is
modelled as `none : Option ℚ` (a comparison against NaN is false, which the
embedding mirrors by making comparisons on `Option ℚ` false when either
side is `none`).
-/

namespace StockMatrix

/-- Comparison on optional values mirroring float comparisons with NaN:
false whenever either side is missing, the strict order otherwise. -/
def ogt : Option ℚ → Option ℚ → Bool
  | some a, some b => decide (a > b)
  | _, _ => false

/-- Non-strict variant of `ogt`, again false whenever a side is missing. -/
def ole : Option ℚ → Option ℚ → Bool
  | some a, some b => decide (a ≤ b)
  | _, _ => false

/-- Bollinger position derivation from moving_average_algorithm: NaN when a
band is missing, 1 when close is at or above the upper band, 0 when at or
below the lower band, the affine ratio otherwise. -/
def bbands_position (bbands_upper bbands_lower : Option ℚ) (close : ℚ) : Option ℚ :=
  match bbands_upper, bbands_lower with
  | some upper, some lower =>
      if close ≥ upper then some 1
      else if close ≤ lower then some 0
      else some ((close - lower) / (upper - lower))
  | _, _ => none

/-- MACD cross signal from macd_formula.  Arguments are the previous bar's
macd and signal-line values, then the current bar's; the two nested
conditional cascades mirror the two chained np.where assignments of the
source, the second overriding the first. -/
def macd_cross_signal (macd_prev signal_prev macd signal : Option ℚ) : Int :=
  let base : Int :=
    if ogt macd (some 0) && macd_prev.isSome && signal_prev.isSome
        && ogt macd signal && ole macd_prev signal_prev then 2
    else if ogt macd (some 0) && macd_prev.isSome && signal_prev.isSome
        && ogt signal macd && ole signal_prev macd_prev then -1
    else 0
  if ogt (some 0) macd && macd_prev.isSome && signal_prev.isSome
      && ogt macd signal && ole macd_prev signal_prev then 1
  else if ogt (some 0) macd && macd_prev.isSome && signal_prev.isSome
      && ogt signal macd && ole signal_prev macd_prev then -2
  else base

/-- A price bar: timestamp (in days) and close, both rational. -/
structure Bar where
  ts : ℚ
  close : ℚ
deriving DecidableEq

/-- The boolean-mask row filter df[df.index >= cutoff] of the source,
keeping exactly the bars at or after the cutoff, in order. -/
def filterBars (cutoff : ℚ) : List Bar → List Bar
  | [] => []
  | b :: rest =>
      if b.ts ≥ cutoff then b :: filterBars cutoff rest else filterBars cutoff rest

/-- filter_data_by_interval: per-interval lookback trimming (5 years of days
for daily and coarser, 30 days for 30m and 60m, 5 days for 5m and 15m, one
day for 1m, everything else untouched). -/
def filter_data_by_interval (now : ℚ) (interval : String) (df : List Bar) : List Bar :=
  if df.isEmpty then df
  else if interval = "1d" ∨ interval = "1wk" ∨ interval = "1mo" ∨ interval = "3mo" then
    filterBars (now - 5 * 365) df
  else if interval = "30m" ∨ interval = "60m" then
    filterBars (now - 30) df
  else if interval = "5m" ∨ interval = "15m" then
    filterBars (now - 5) df
  else if interval = "1m" then
    filterBars (now - 1) df
  else df

/-- Stable insertion into a timestamp-sorted list of bars. -/
def insertBar (b : Bar) : List Bar → List Bar
  | [] => [b]
  | x :: rest => if b.ts ≤ x.ts then b :: x :: rest else x :: insertBar b rest

/-- df.sort_index of the source: sort the parsed bars by timestamp. -/
def sort_index : List Bar → List Bar
  | [] => []
  | b :: rest => insertBar b (sort_index rest)

/-- The tail of _parse_stock_price_data_response after the bars have been
parsed: the frame is sorted by index, a filtered frame is computed, and the
UNFILTERED frame is the one returned (the computed df_filtered is unused,
exactly as in the source). -/
def parse_stock_price_data_response (now : ℚ) (interval : String)
    (df_data : List Bar) : List Bar :=
  let df := sort_index df_data
  let df_filtered := filter_data_by_interval now interval df
  df

/-- Store accesses made for one symbol by the body of the metadata batch
loop in database_init.py. -/
inductive StoreEvent where
  | mongo_write : StoreEvent
  | postgres_write : Bool → StoreEvent
  | redis_cache : StoreEvent
deriving DecidableEq

/-- Sequence of store accesses for one symbol in the batch loop, in source
order: the MongoDB document write first, then one PostgreSQL write per
interval (with its success flag), then the Redis cache write if and only if
the MongoDB write succeeded. -/
def stock_metadata_symbol_trace (mongo_success : Bool)
    (postgres_results : List Bool) : List StoreEvent :=
  StoreEvent.mongo_write ::
    (postgres_results.map StoreEvent.postgres_write
      ++ (if mongo_success then [StoreEvent.redis_cache] else []))

/-- The property claimed by the spec, as a decidable check over a trace:
every document-store write is preceded by a successful relational write.
The accumulator records whether a successful relational write has been
seen. -/
def doc_write_after_successful_rel : Bool → List StoreEvent → Bool
  | _, [] => true
  | seen, StoreEvent.mongo_write :: rest =>
      seen && doc_write_after_successful_rel seen rest
  | seen, StoreEvent.postgres_write ok :: rest =>
      doc_write_after_successful_rel (seen || ok) rest
  | seen, StoreEvent.redis_cache :: rest =>
      doc_write_after_successful_rel seen rest

/-- The per-symbol loop of initialize_stock_metadata: each symbol's
processing yields either a combined success flag (MongoDB and PostgreSQL
both succeeded) or an exception; an exception is caught, counted as an
error, and the loop continues.  Returns (success_count, error_count). -/
def init_stock_metadata_loop {σ ε : Type} (f : σ → Except ε Bool) :
    List σ → ℕ × ℕ
  | [] => (0, 0)
  | st :: rest =>
      let r := init_stock_metadata_loop f rest
      match f st with
      | Except.ok true => (r.1 + 1, r.2)
      | Except.ok false => (r.1, r.2 + 1)
      | Except.error _ => (r.1, r.2 + 1)

/-- Association-list lookup on string keys. -/
def lookupStr : List (String × String) → String → Option String
  | [], _ => none
  | p :: rest, k => if p.1 = k then some p.2 else lookupStr rest k

/-- The interval_tables dictionary of SimpleTechnicalDataRepository. -/
def interval_tables : List (String × String) :=
  [("1m", "interval_1m_technical"),
   ("5m", "interval_5m_technical"),
   ("15m", "interval_15m_technical"),
   ("30m", "interval_30m_technical"),
   ("60m", "interval_60m_technical"),
   ("1d", "interval_1d_technical"),
   ("1wk", "interval_1wk_technical"),
   ("1mo", "interval_1mo_technical")]

/-- The row loop of save_technical_data that assembles one record per bar;
building a record may raise (modelled with Except.error), and a raised
error aborts the loop and propagates. -/
def build_records {α β : Type} (build : α → Except String β) :
    List α → Except String (List β)
  | [] => Except.ok []
  | r :: rest =>
    match build r with
    | Except.error e => Except.error e
    | Except.ok rec1 =>
      match build_records build rest with
      | Except.error e => Except.error e
      | Except.ok recs => Except.ok (rec1 :: recs)

/-- The try-block of save_technical_data: unknown interval, missing or empty
price data, and an empty record list return ok false; building the records
and the batch insert may raise (modelled with Except.error), in which case
the error propagates out of the body to the except handler. -/
def save_technical_data_body {α β : Type} (interval : String)
    (stock_price : Option (List α)) (build : α → Except String β)
    (insert_batch : List β → Except String Unit) : Except String Bool :=
  match lookupStr interval_tables interval with
  | none => Except.ok false
  | some _ =>
    match stock_price with
    | none => Except.ok false
    | some rows =>
      if rows.isEmpty then Except.ok false
      else
        match build_records build rows with
        | Except.error e => Except.error e
        | Except.ok records =>
          if records.isEmpty then Except.ok false
          else
            match insert_batch records with
            | Except.error e => Except.error e
            | Except.ok _ => Except.ok true

/-- save_technical_data: the try-block wrapped in the except handler that
turns any raised error into the return value False. -/
def save_technical_data {α β : Type} (interval : String)
    (stock_price : Option (List α)) (build : α → Except String β)
    (insert_batch : List β → Except String Unit) : Bool :=
  match save_technical_data_body interval stock_price build insert_batch with
  | Except.ok b => b
  | Except.error _ => false

/-- A concrete per-symbol processing function for exercising the batch
loop: symbol 1 always raises, every other symbol succeeds. -/
def c6_probe : ℕ → Except String Bool :=
  fun n => if n = 1 then Except.error "boom" else Except.ok true

/-- The shared recursion of the two KDJ smoothing loops in kdj_formula: walk
the input values carrying a running state; a defined value v updates the
state to factor * v + (1 - factor) * state and emits it, an undefined value
emits NaN and leaves the state untouched. -/
def kdj_smooth (factor : ℚ) : ℚ → List (Option ℚ) → List (Option ℚ)
  | _, [] => []
  | s, none :: rest => none :: kdj_smooth factor s rest
  | s, some v :: rest =>
      some (factor * v + (1 - factor) * s)
        :: kdj_smooth factor (factor * v + (1 - factor) * s) rest

/-- The running state of `kdj_smooth` after consuming a list. -/
def kdj_state (factor : ℚ) : ℚ → List (Option ℚ) → ℚ
  | s, [] => s
  | s, none :: rest => kdj_state factor s rest
  | s, some v :: rest => kdj_state factor (factor * v + (1 - factor) * s) rest

/-- The k loop of kdj_formula: smooth the RSV series with factor
1/slowk_period from the seed k0 = 50. -/
def k_list (slowk_period : ℚ) (rsv : List (Option ℚ)) : List (Option ℚ) :=
  kdj_smooth (1 / slowk_period) 50 rsv

/-- The d loop of kdj_formula: smooth the K series with factor
1/slowd_period from the seed d0 = 50. -/
def d_list (slowd_period : ℚ) (ks : List (Option ℚ)) : List (Option ℚ) :=
  kdj_smooth (1 / slowd_period) 50 ks

/-- The last defined value of a series of optional values. -/
def lastSome : List (Option ℚ) → Option ℚ
  | [] => none
  | x :: rest =>
    match lastSome rest with
    | some w => some w
    | none => x

/-- A SQL column value: NULL, a number, or a text value. -/
inductive Val where
  | null : Val
  | num : ℚ → Val
  | str : String → Val
deriving DecidableEq

/-- A record handed to the batch insert (a Python dict in the source) and
likewise a stored table row: an association list from column name to
value.  Lookup takes the first binding; a missing column is NULL, which is
what record.get(col) passes to the insert for an absent key. -/
abbrev Record := List (String × Val)

/-- First-binding lookup with NULL for a missing column. -/
def rowGet : Record → String → Val
  | [], _ => Val.null
  | p :: rest, c => if p.1 = c then p.2 else rowGet rest c

/-- Whether a row or record binds a column name. -/
def rowHas : Record → String → Bool
  | [], _ => false
  | p :: rest, c => p.1 = c || rowHas rest c

/-- records[0].keys(): the column list of a record, in order. -/
def recKeys (r : Record) : List String := r.map fun p => p.1

/-- String membership in a list of column names. -/
def strIn : List String → String → Bool
  | [], _ => false
  | x :: rest, c => c = x || strIn rest c

/-- The conflict-key columns of the upsert target. -/
def isKeyCol (c : String) : Bool := c = "symbol" || c = "datetime_index"

/-- The columns receiving a DO UPDATE SET clause: every insert column that
is not a key column, as in the source's filter over the first record's
keys. -/
def nonKeyCols (cols : List String) : List String :=
  cols.filter fun c => !(isKeyCol c)

/-- The unique key of a record: the values it binds for symbol and
datetime_index. -/
def recKey (r : Record) : Val × Val :=
  (rowGet r "symbol", rowGet r "datetime_index")

/-- The relational table, as rows indexed by their (symbol, datetime_index)
key. -/
abbrev Table := List ((Val × Val) × Record)

/-- Whether the table has a row with the given key. -/
def containsKey : Table → Val × Val → Bool
  | [], _ => false
  | e :: rest, k => e.1 = k || containsKey rest k

/-- The row stored under a key, if any. -/
def tableFind : Table → Val × Val → Option Record
  | [], _ => none
  | e :: rest, k => if e.1 = k then some e.2 else tableFind rest k

/-- Column read through an optional row: NULL when the row is absent. -/
def optRowGet : Option Record → String → Val
  | some r, c => rowGet r c
  | none, _ => Val.null

/-- A freshly inserted row: exactly the insert columns, each bound to the
record's value for it. -/
def freshRow (cols : List String) (rec : Record) : Record :=
  cols.map fun c => (c, rowGet rec c)

/-- The DO UPDATE SET applied to an existing row on conflict: every bound
column that is a non-key insert column is overwritten with the excluded
record's value, other bound columns keep their values, and non-key insert
columns the row did not bind yet are added. -/
def updateRow (old : Record) (cols : List String) (rec : Record) : Record :=
  (old.map fun p =>
      if strIn (nonKeyCols cols) p.1 then (p.1, rowGet rec p.1) else p)
    ++ freshRow ((nonKeyCols cols).filter fun c => !(rowHas old c)) rec

/-- One INSERT ... ON CONFLICT (symbol, datetime_index) DO UPDATE: replace
the conflicting row's non-key insert columns, or append a fresh row. -/
def tableUpsert (t : Table) (cols : List String) (rec : Record) : Table :=
  if containsKey t (recKey rec) then
    t.map fun e =>
      if e.1 = recKey rec then (e.1, updateRow e.2 cols rec) else e
  else
    t ++ [(recKey rec, freshRow cols rec)]

/-- The executemany loop: one upsert per record, in order, all with the
same column list. -/
def batchApply (cols : List String) (t : Table) : List Record → Table
  | [] => t
  | r :: rs => batchApply cols (tableUpsert t cols r) rs

/-- _enhanced_batch_insert: nothing on an empty batch; otherwise the column
list is taken from the FIRST record's keys and every record is upserted
with that column list. -/
def enhanced_batch_insert (t : Table) (records : List Record) : Table :=
  match records with
  | [] => t
  | r0 :: _ => batchApply (recKeys r0) t records

/-- The keys of the table's rows are pairwise distinct (the unique
constraint on (symbol, datetime_index)). -/
def keysNodup (t : Table) : Prop := (t.map fun e => e.1).Nodup

/-- The last record of a batch carrying a given key, the one whose values
win under last-writer-wins upserts. -/
def lastRec : List Record → Val × Val → Option Record
  | [], _ => none
  | r :: rs, k =>
    match lastRec rs k with
    | some r2 => some r2
    | none => if recKey r = k then some r else none

end StockMatrix

namespace StockMatrix

/-- C4: for every bar, the derived Bollinger position is missing exactly when
the upper or lower band is undefined; otherwise it is 1 when close is at or
above the upper band, 0 when at or below the lower band (the upper rule
taking precedence), the ratio (close - lower) / (upper - lower) in the
remaining cases, and every defined value lies in [0, 1]. -/
theorem bbands_position_spec (u l : Option ℚ) (c : ℚ) :
    (bbands_position u l c = none ↔ u = none ∨ l = none)
    ∧ (∀ uu ll : ℚ, u = some uu → l = some ll →
        ((c ≥ uu → bbands_position u l c = some 1)
        ∧ (¬ c ≥ uu → c ≤ ll → bbands_position u l c = some 0)
        ∧ (¬ c ≥ uu → ¬ c ≤ ll →
            bbands_position u l c = some ((c - ll) / (uu - ll)))))
    ∧ (∀ p : ℚ, bbands_position u l c = some p → 0 ≤ p ∧ p ≤ 1) := by
  refine ⟨?_, ?_, ?_⟩
  · cases u with
    | none => simp [bbands_position]
    | some uu =>
      cases l with
      | none => simp [bbands_position]
      | some ll =>
        simp only [bbands_position]
        constructor
        · intro h
          split at h
          · exact absurd h (by simp)
          · split at h
            · exact absurd h (by simp)
            · exact absurd h (by simp)
        · rintro (h | h) <;> exact absurd h (by simp)
  · rintro uu ll rfl rfl
    refine ⟨?_, ?_, ?_⟩
    · intro h; simp [bbands_position, h]
    · intro h1 h2; simp [bbands_position, h1, h2]
    · intro h1 h2; simp [bbands_position, h1, h2]
  · intro p hp
    cases u with
    | none => simp [bbands_position] at hp
    | some uu =>
      cases l with
      | none => simp [bbands_position] at hp
      | some ll =>
        simp only [bbands_position] at hp
        split at hp
        · injection hp with h; subst h; norm_num
        · split at hp
          · injection hp with h; subst h; norm_num
          · rename_i h1 h2
            injection hp with h
            subst h
            push_neg at h1 h2
            have hpos : 0 < uu - ll := by linarith
            constructor
            · exact div_nonneg (by linarith) (le_of_lt hpos)
            · rw [div_le_one hpos]; linarith

/-- C4 witness: at upper band 10, lower band 0 and close 5 the position is
the ratio 1/2, which lies in [0, 1]. -/
theorem bbands_position_spec_witness :
    0 ≤ (5 - 0 : ℚ) / (10 - 0) ∧ (5 - 0 : ℚ) / (10 - 0) ≤ 1 :=
  (bbands_position_spec (some 10) (some 0) 5).2.2 ((5 - 0) / (10 - 0))
    (by norm_num [bbands_position])

/-- C5: the MACD cross signal is 0 unless the previous and current bar both
have defined macd and signal values; when all four are defined, a golden
cross (macd rises through the signal line) with macd above zero gives 2 and
below zero gives 1, a death cross with macd above zero gives -1 and below
zero gives -2, and no crossing gives 0. -/
theorem macd_cross_signal_cases (mp sp mc sc : Option ℚ) :
    (mp = none ∨ sp = none ∨ mc = none ∨ sc = none →
      macd_cross_signal mp sp mc sc = 0)
    ∧ (∀ a b x y : ℚ, mp = some a → sp = some b → mc = some x → sc = some y →
        ((x > y ∧ a ≤ b ∧ x > 0 → macd_cross_signal mp sp mc sc = 2)
        ∧ (x > y ∧ a ≤ b ∧ x < 0 → macd_cross_signal mp sp mc sc = 1)
        ∧ (x < y ∧ b ≤ a ∧ x > 0 → macd_cross_signal mp sp mc sc = -1)
        ∧ (x < y ∧ b ≤ a ∧ x < 0 → macd_cross_signal mp sp mc sc = -2)
        ∧ (¬ (x > y ∧ a ≤ b) ∧ ¬ (x < y ∧ b ≤ a) →
            macd_cross_signal mp sp mc sc = 0))) := by
  constructor
  · rintro (rfl | rfl | rfl | rfl)
    · cases sp <;> cases mc <;> cases sc <;> simp [macd_cross_signal, ogt, ole]
    · cases mp <;> cases mc <;> cases sc <;> simp [macd_cross_signal, ogt, ole]
    · cases mp <;> cases sp <;> cases sc <;> simp [macd_cross_signal, ogt, ole]
    · cases mp <;> cases sp <;> cases mc <;> simp [macd_cross_signal, ogt, ole]
  · rintro a b x y rfl rfl rfl rfl
    refine ⟨?_, ?_, ?_, ?_, ?_⟩
    · rintro ⟨h1, h2, h3⟩
      simp [macd_cross_signal, ogt, ole, h1, h2, h3,
        not_lt.mpr (le_of_lt h3), not_lt.mpr (le_of_lt h1)]
    · rintro ⟨h1, h2, h3⟩
      simp [macd_cross_signal, ogt, ole, h1, h2, h3,
        not_lt.mpr (le_of_lt h3), not_lt.mpr (le_of_lt h1)]
    · rintro ⟨h1, h2, h3⟩
      simp [macd_cross_signal, ogt, ole, h1, h2, h3,
        not_lt.mpr (le_of_lt h3), not_lt.mpr (le_of_lt h1)]
    · rintro ⟨h1, h2, h3⟩
      simp [macd_cross_signal, ogt, ole, h1, h2, h3,
        not_lt.mpr (le_of_lt h3), not_lt.mpr (le_of_lt h1)]
    · rintro ⟨h1, h2⟩
      rcases not_and_or.mp h1 with h1a | h1a <;>
        rcases not_and_or.mp h2 with h2a | h2a <;>
          simp [macd_cross_signal, ogt, ole, h1a, h2a]

/-- C5 witness: previous bar macd 1 and signal 2, current bar macd 3 and
signal 2 is a golden cross with positive macd, so the signal is 2. -/
theorem macd_cross_signal_cases_witness :
    macd_cross_signal (some 1) (some 2) (some 3) (some 2) = 2 :=
  ((macd_cross_signal_cases (some 1) (some 2) (some 3) (some 2)).2 1 2 3 2
    rfl rfl rfl rfl).1 ⟨by norm_num, by norm_num, by norm_num⟩

/-- C9: a crossing that occurs while the macd value is exactly 0 produces no
signal: with current macd 0 the cross signal is 0 whatever the other three
values are, because each nonzero branch requires macd strictly positive or
strictly negative. -/
theorem macd_cross_signal_zero_axis (mp sp sc : Option ℚ) :
    macd_cross_signal mp sp (some 0) sc = 0 := by
  simp [macd_cross_signal, ogt, ole]

/-- C2: the parse step returns the UNFILTERED frame.  On a daily series with
a bar 2000 days old (outside the 5-year window ending at day 0), the
returned series still contains that bar, although the lookback filter the
function computes and then discards would have removed it. -/
theorem parse_response_returns_untrimmed :
    Bar.mk (-2000) 50 ∈ parse_stock_price_data_response 0 "1d"
        [Bar.mk 0 100, Bar.mk (-2000) 50]
    ∧ (-2000 : ℚ) < 0 - 5 * 365
    ∧ Bar.mk (-2000) 50 ∉ filter_data_by_interval 0 "1d"
        (sort_index [Bar.mk 0 100, Bar.mk (-2000) 50]) := by
  refine ⟨?_, by norm_num, ?_⟩
  · norm_num [parse_stock_price_data_response, sort_index, insertBar]
  · norm_num [filter_data_by_interval, sort_index, insertBar, filterBars]

/-- C7 counterexample: the claim that the document-store write happens only
after a successful relational write fails on the code: in the trace of one
symbol the MongoDB write is the first event, before any PostgreSQL write,
both when the later relational write fails and when it succeeds. -/
theorem doc_mirror_counterexample :
    doc_write_after_successful_rel false (stock_metadata_symbol_trace true [false]) = false
    ∧ doc_write_after_successful_rel false (stock_metadata_symbol_trace true [true]) = false := by
  constructor <;> rfl

/-- C7 amended: for every symbol the document-store write is the FIRST store
event — it precedes every relational write and happens unconditionally,
exactly once; only the cache write is conditioned on the document write's
own success. -/
theorem doc_mirror_precedes_relational (mongo_success : Bool) (pg : List Bool) :
    (stock_metadata_symbol_trace mongo_success pg).head? = some StoreEvent.mongo_write
    ∧ (∀ i : ℕ, ∀ b : Bool,
        (stock_metadata_symbol_trace mongo_success pg).get? i
          = some (StoreEvent.postgres_write b) → 1 ≤ i)
    ∧ (stock_metadata_symbol_trace mongo_success pg).count StoreEvent.mongo_write = 1
    ∧ (StoreEvent.redis_cache ∈ stock_metadata_symbol_trace mongo_success pg
        ↔ mongo_success = true) := by
  refine ⟨rfl, ?_, ?_, ?_⟩
  · intro i b h
    cases i with
    | zero => simp [stock_metadata_symbol_trace] at h
    | succ n => exact Nat.succ_le_succ (Nat.zero_le n)
  · have hmap : StoreEvent.mongo_write ∉ pg.map StoreEvent.postgres_write := by
      simp [List.mem_map]
    cases mongo_success <;>
      simp [stock_metadata_symbol_trace, List.count_cons, List.count_append,
        List.count_eq_zero.mpr hmap]
  · cases mongo_success <;>
      simp [stock_metadata_symbol_trace, List.mem_map]

/-- C7 witness for the amended claim: in a concrete trace the head is the
document write and the relational write sits strictly after it. -/
theorem doc_mirror_precedes_relational_witness :
    (stock_metadata_symbol_trace true [false]).head? = some StoreEvent.mongo_write
    ∧ 1 ≤ 1 :=
  ⟨(doc_mirror_precedes_relational true [false]).1,
   (doc_mirror_precedes_relational true [false]).2.1 1 false (by decide)⟩

/-- Counts of the batch loop distribute over list append. -/
theorem init_loop_append {σ ε : Type} (f : σ → Except ε Bool) (xs ys : List σ) :
    init_stock_metadata_loop f (xs ++ ys)
      = ((init_stock_metadata_loop f xs).1 + (init_stock_metadata_loop f ys).1,
         (init_stock_metadata_loop f xs).2 + (init_stock_metadata_loop f ys).2) := by
  induction xs with
  | nil => simp [init_stock_metadata_loop]
  | cons st rest ih =>
    cases h : f st with
    | ok b =>
      cases b <;>
        simp [init_stock_metadata_loop, h, ih, Prod.ext_iff] <;> omega
    | error e =>
      simp [init_stock_metadata_loop, h, ih, Prod.ext_iff]
      omega

/-- The two counters of the batch loop always sum to the number of symbols
handed to it. -/
theorem init_loop_total {σ ε : Type} (f : σ → Except ε Bool) (stocks : List σ) :
    (init_stock_metadata_loop f stocks).1 + (init_stock_metadata_loop f stocks).2
      = stocks.length := by
  induction stocks with
  | nil => simp [init_stock_metadata_loop]
  | cons st rest ih =>
    cases h : f st with
    | ok b =>
      cases b <;> simp [init_stock_metadata_loop, h] <;> omega
    | error e =>
      simp [init_stock_metadata_loop, h]
      omega

/-- C6: a symbol whose processing raises does not abort the batch: with the
failing symbol in the middle, the success count is the sum of the counts of
the symbols before and after it, the error count additionally counts the
failing symbol, and for every batch the two counters sum to the number of
symbols processed (every symbol is accounted for, none skipped). -/
theorem init_stock_metadata_isolates_failures {σ ε : Type}
    (f : σ → Except ε Bool) (pre post : List σ) (b : σ) (e : ε)
    (hb : f b = Except.error e) :
    (init_stock_metadata_loop f (pre ++ b :: post)).1
        = (init_stock_metadata_loop f pre).1 + (init_stock_metadata_loop f post).1
    ∧ (init_stock_metadata_loop f (pre ++ b :: post)).2
        = (init_stock_metadata_loop f pre).2 + (init_stock_metadata_loop f post).2 + 1
    ∧ ∀ stocks : List σ,
        (init_stock_metadata_loop f stocks).1 + (init_stock_metadata_loop f stocks).2
          = stocks.length := by
  have hmid : init_stock_metadata_loop f (b :: post)
      = ((init_stock_metadata_loop f post).1,
         (init_stock_metadata_loop f post).2 + 1) := by
    simp [init_stock_metadata_loop, hb]
  refine ⟨?_, ?_, fun stocks => init_loop_total f stocks⟩
  · rw [init_loop_append, hmid]
  · rw [init_loop_append, hmid]
    show (init_stock_metadata_loop f pre).2 + ((init_stock_metadata_loop f post).2 + 1)
        = (init_stock_metadata_loop f pre).2 + (init_stock_metadata_loop f post).2 + 1
    omega

/-- C6 witness: in the batch 0, 1, 2, 3 where symbol 1 raises, the batch
still counts three successes and one error, covering all four symbols. -/
theorem init_stock_metadata_isolates_failures_witness :
    (init_stock_metadata_loop c6_probe ([0] ++ 1 :: [2, 3])).1
        = (init_stock_metadata_loop c6_probe [0]).1
          + (init_stock_metadata_loop c6_probe [2, 3]).1
    ∧ (init_stock_metadata_loop c6_probe ([0] ++ 1 :: [2, 3])).2
        = (init_stock_metadata_loop c6_probe [0]).2
          + (init_stock_metadata_loop c6_probe [2, 3]).2 + 1
    ∧ ∀ stocks : List ℕ,
        (init_stock_metadata_loop c6_probe stocks).1
          + (init_stock_metadata_loop c6_probe stocks).2
          = stocks.length :=
  init_stock_metadata_isolates_failures c6_probe [0] [2, 3] 1 "boom" rfl

/-- C10: save_technical_data returns a plain boolean for every input: an
unknown interval, a missing stock_price frame, an empty frame, an error
raised while building records, an error raised by the batch insert, and any
error of the try-block at all, each yield the return value false; the call
returns true exactly when the try-block ran to completion returning true. -/
theorem save_technical_data_no_raise {α β : Type} (interval : String)
    (stock_price : Option (List α)) (build : α → Except String β)
    (insert_batch : List β → Except String Unit) :
    (lookupStr interval_tables interval = none →
      save_technical_data interval stock_price build insert_batch = false)
    ∧ (stock_price = none →
      save_technical_data interval stock_price build insert_batch = false)
    ∧ (stock_price = some [] →
      save_technical_data interval stock_price build insert_batch = false)
    ∧ (∀ e : String,
        save_technical_data_body interval stock_price build insert_batch
          = Except.error e →
        save_technical_data interval stock_price build insert_batch = false)
    ∧ (∀ rows : List α, ∀ e : String, stock_price = some rows →
        build_records build rows = Except.error e →
        save_technical_data interval stock_price build insert_batch = false)
    ∧ (∀ rows : List α, ∀ recs : List β, ∀ e : String, stock_price = some rows →
        build_records build rows = Except.ok recs →
        insert_batch recs = Except.error e →
        save_technical_data interval stock_price build insert_batch = false)
    ∧ (save_technical_data interval stock_price build insert_batch = true ↔
        save_technical_data_body interval stock_price build insert_batch
          = Except.ok true) := by
  have hchar : save_technical_data interval stock_price build insert_batch = true ↔
      save_technical_data_body interval stock_price build insert_batch
        = Except.ok true := by
    unfold save_technical_data
    cases h : save_technical_data_body interval stock_price build insert_batch with
    | ok b => cases b <;> simp
    | error e => simp
  have hfalse : ∀ h : save_technical_data_body interval stock_price build insert_batch
      ≠ Except.ok true,
      save_technical_data interval stock_price build insert_batch = false := by
    intro h
    cases hv : save_technical_data interval stock_price build insert_batch
    · rfl
    · exact absurd (hchar.mp hv) h
  refine ⟨?_, ?_, ?_, ?_, ?_, ?_, hchar⟩
  · intro h
    apply hfalse
    simp [save_technical_data_body, h]
  · intro h
    apply hfalse
    subst h
    cases hl : lookupStr interval_tables interval <;>
      simp [save_technical_data_body, hl]
  · intro h
    apply hfalse
    subst h
    cases hl : lookupStr interval_tables interval <;>
      simp [save_technical_data_body, hl]
  · intro e he
    apply hfalse
    simp [he]
  · intro rows e hsp hm
    apply hfalse
    subst hsp
    cases hl : lookupStr interval_tables interval with
    | none => simp [save_technical_data_body, hl]
    | some tn =>
      cases rows with
      | nil => simp [build_records] at hm
      | cons r rs => simp [save_technical_data_body, hl, hm]
  · intro rows recs e hsp hm hins
    apply hfalse
    subst hsp
    cases hl : lookupStr interval_tables interval with
    | none => simp [save_technical_data_body, hl]
    | some tn =>
      cases rows with
      | nil => simp [save_technical_data_body, hl]
      | cons r rs =>
        cases recs with
        | nil => simp [save_technical_data_body, hl, hm]
        | cons q qs => simp [save_technical_data_body, hl, hm, hins]

/-- C10 witness: a working interval and one row, with a batch insert that
raises, gives the return value false rather than an error. -/
theorem save_technical_data_no_raise_witness :
    save_technical_data "1d" (some [5])
      (fun n : ℕ => Except.ok n)
      (fun _ : List ℕ => Except.error "db down") = false :=
  ((save_technical_data_no_raise "1d" (some [5]) (fun n : ℕ => Except.ok n)
      (fun _ : List ℕ => Except.error "db down")).2.2.2.2.2.1)
    [5] [5] "db down" rfl rfl rfl

/-- The KDJ smoothing loop splits over list append, with the state threaded
through the first part. -/
theorem kdj_smooth_append (f s : ℚ) (xs ys : List (Option ℚ)) :
    kdj_smooth f s (xs ++ ys)
      = kdj_smooth f s xs ++ kdj_smooth f (kdj_state f s xs) ys := by
  induction xs generalizing s with
  | nil => simp [kdj_smooth, kdj_state]
  | cons x rest ih =>
    cases x <;> simp [kdj_smooth, kdj_state, ih]

/-- The KDJ running state splits over list append. -/
theorem kdj_state_append (f s : ℚ) (xs ys : List (Option ℚ)) :
    kdj_state f s (xs ++ ys) = kdj_state f (kdj_state f s xs) ys := by
  induction xs generalizing s with
  | nil => simp [kdj_state]
  | cons x rest ih =>
    cases x <;> simp [kdj_state, ih]

/-- A run of undefined inputs is emitted as a run of NaNs. -/
theorem kdj_smooth_replicate (f s : ℚ) (n : ℕ) :
    kdj_smooth f s (List.replicate n none) = List.replicate n none := by
  induction n with
  | zero => simp [kdj_smooth]
  | succ m ih => simp [List.replicate_succ, kdj_smooth, ih]

/-- A run of undefined inputs leaves the running state untouched. -/
theorem kdj_state_replicate (f s : ℚ) (n : ℕ) :
    kdj_state f s (List.replicate n none) = s := by
  induction n with
  | zero => simp [kdj_state]
  | succ m ih => simp [List.replicate_succ, kdj_state, ih]

/-- If the smoothed series has no defined entry, the state is the seed. -/
theorem kdj_lastSome_none (f : ℚ) (xs : List (Option ℚ)) :
    ∀ s : ℚ, lastSome (kdj_smooth f s xs) = none → kdj_state f s xs = s := by
  induction xs with
  | nil => intro s _; rfl
  | cons x rest ih =>
    intro s h
    cases x with
    | none =>
      simp only [kdj_smooth, lastSome] at h
      cases hls : lastSome (kdj_smooth f s rest) with
      | some w => rw [hls] at h; exact absurd h (by simp)
      | none => simpa [kdj_state] using ih s hls
    | some v =>
      simp only [kdj_smooth, lastSome] at h
      cases hls : lastSome (kdj_smooth f (f * v + (1 - f) * s) rest) with
      | some w => rw [hls] at h; exact absurd h (by simp)
      | none => rw [hls] at h; exact absurd h (by simp)

/-- The running state after a series equals its last defined smoothed
value, whenever one exists. -/
theorem kdj_lastSome_state (f : ℚ) (xs : List (Option ℚ)) :
    ∀ s w : ℚ, lastSome (kdj_smooth f s xs) = some w → kdj_state f s xs = w := by
  induction xs with
  | nil => intro s w h; exact absurd h (by simp [kdj_smooth, lastSome])
  | cons x rest ih =>
    intro s w h
    cases x with
    | none =>
      simp only [kdj_smooth, lastSome] at h
      cases hls : lastSome (kdj_smooth f s rest) with
      | some w2 =>
        rw [hls] at h
        have hw : w2 = w := by simpa using h
        subst hw
        simpa [kdj_state] using ih s w2 hls
      | none => rw [hls] at h; exact absurd h (by simp)
    | some v =>
      simp only [kdj_smooth, lastSome] at h
      cases hls : lastSome (kdj_smooth f (f * v + (1 - f) * s) rest) with
      | some w2 =>
        rw [hls] at h
        have hw : w2 = w := by simpa using h
        subst hw
        simpa [kdj_state] using ih (f * v + (1 - f) * s) w2 hls
      | none =>
        rw [hls] at h
        have hw : f * v + (1 - f) * s = w := by simpa using h
        have := kdj_lastSome_none f rest (f * v + (1 - f) * s) hls
        simpa [kdj_state, this] using hw

/-- The smoothed series is NaN exactly at the positions where the input is
NaN. -/
theorem kdj_smooth_nan_positions (f : ℚ) (ks : List (Option ℚ)) :
    ∀ s : ℚ, ∀ i : ℕ,
      ((kdj_smooth f s ks).get? i = some none ↔ ks.get? i = some none) := by
  induction ks with
  | nil => intro s i; simp [kdj_smooth]
  | cons x rest ih =>
    intro s i
    cases x with
    | none =>
      cases i with
      | zero => simp [kdj_smooth]
      | succ m => simpa [kdj_smooth] using ih s m
    | some v =>
      cases i with
      | zero => simp [kdj_smooth]
      | succ m => simpa [kdj_smooth] using ih (f * v + (1 - f) * s) m

/-- C3: on a series pre ++ gap ++ (v :: rs) with an interior run of n bars
of undefined RSV, the K list emits NaN on every gap bar, and the K value at
the first defined-RSV bar after the gap is (1/slowK) * v +
(1 - 1/slowK) * K_state(pre): the recursion continues from the state
reached before the gap, which equals the last defined K of the pre segment
whenever one exists (so not the seed 50); moreover D is defined exactly at
the bars where K is defined, and the D state does not change on a bar with
undefined K. -/
theorem kdj_k_carries_state_across_gap (slowk_period : ℚ)
    (pre rs : List (Option ℚ)) (n : ℕ) (v : ℚ) :
    (k_list slowk_period (pre ++ List.replicate n none ++ some v :: rs)
      = k_list slowk_period pre ++ List.replicate n none
        ++ some ((1 / slowk_period) * v
            + (1 - 1 / slowk_period) * kdj_state (1 / slowk_period) 50 pre)
          :: kdj_smooth (1 / slowk_period)
              ((1 / slowk_period) * v
                + (1 - 1 / slowk_period) * kdj_state (1 / slowk_period) 50 pre) rs)
    ∧ (∀ w : ℚ, lastSome (k_list slowk_period pre) = some w →
        kdj_state (1 / slowk_period) 50 pre = w)
    ∧ (∀ slowd_period : ℚ, ∀ ks : List (Option ℚ), ∀ i : ℕ,
        ((d_list slowd_period ks).get? i = some none ↔ ks.get? i = some none))
    ∧ (∀ g s : ℚ, ∀ ks : List (Option ℚ),
        kdj_state g s (ks ++ [none]) = kdj_state g s ks) := by
  refine ⟨?_, ?_, ?_, ?_⟩
  · unfold k_list
    rw [kdj_smooth_append, kdj_smooth_append, kdj_smooth_replicate,
      kdj_state_append, kdj_state_replicate, List.append_assoc]
    simp [kdj_smooth]
  · intro w h
    exact kdj_lastSome_state (1 / slowk_period) pre 50 w h
  · intro sd ks i
    exact kdj_smooth_nan_positions (1 / sd) ks 50 i
  · intro g s ks
    rw [kdj_state_append]
    simp [kdj_state]

/-- C3 witness: after a pre segment with the single defined RSV 60, the
carried state is the last defined K, namely (1/3) * 60 + (1 - 1/3) * 50,
not the seed 50. -/
theorem kdj_k_carries_state_across_gap_witness :
    kdj_state (1 / 3) 50 [some 60] = (1 / 3) * 60 + (1 - 1 / 3) * 50 :=
  (kdj_k_carries_state_across_gap 3 [some 60] [] 1 30).2.1
    ((1 / 3) * 60 + (1 - 1 / 3) * 50) rfl

/-- Boolean membership agrees with list membership. -/
theorem strIn_iff (l : List String) (c : String) : strIn l c = true ↔ c ∈ l := by
  induction l with
  | nil => simp [strIn]
  | cons x rest ih => simp [strIn, ih]

/-- A column a row does not bind reads as NULL. -/
theorem rowHas_false_rowGet (r : Record) (c : String) (h : rowHas r c = false) :
    rowGet r c = Val.null := by
  induction r with
  | nil => rfl
  | cons p rest ih =>
    simp only [rowHas, Bool.or_eq_false_iff, decide_eq_false_iff_not] at h
    simp [rowGet, h.1, ih h.2]

/-- Reading an insert column from a fresh row gives the record's value. -/
theorem rowGet_freshRow_mem (cols : List String) (rec : Record) (c : String)
    (h : strIn cols c = true) : rowGet (freshRow cols rec) c = rowGet rec c := by
  induction cols with
  | nil => simp [strIn] at h
  | cons d rest ih =>
    simp only [strIn, Bool.or_eq_true, decide_eq_true_eq] at h
    by_cases hdc : c = d
    · subst hdc; simp [freshRow, rowGet]
    · simp only [freshRow, rowGet, List.map_cons]
      rw [if_neg (fun hx => hdc hx.symm)]
      exact ih (h.resolve_left hdc)

/-- Reading a non-insert column from a fresh row gives NULL. -/
theorem rowGet_freshRow_not_mem (cols : List String) (rec : Record) (c : String)
    (h : strIn cols c = false) : rowGet (freshRow cols rec) c = Val.null := by
  induction cols with
  | nil => rfl
  | cons d rest ih =>
    simp only [strIn, Bool.or_eq_false_iff, decide_eq_false_iff_not] at h
    simp only [freshRow, rowGet, List.map_cons]
    rw [if_neg (fun hx => h.1 hx.symm)]
    exact ih h.2

/-- The per-column overwrite map does not change which columns a row
binds. -/
theorem rowHas_map_update (old : Record) (nk : List String) (rec : Record)
    (c : String) :
    rowHas (old.map fun p =>
        if strIn nk p.1 then (p.1, rowGet rec p.1) else p) c
      = rowHas old c := by
  induction old with
  | nil => rfl
  | cons p rest ih =>
    by_cases hs : strIn nk p.1 = true <;>
      simp [rowHas, hs, ih]

/-- Reading through the per-column overwrite map: the record's value on an
overwritten bound column, the old value otherwise. -/
theorem rowGet_map_update (old : Record) (nk : List String) (rec : Record)
    (c : String) :
    rowGet (old.map fun p =>
        if strIn nk p.1 then (p.1, rowGet rec p.1) else p) c
      = if strIn nk c = true ∧ rowHas old c = true then rowGet rec c
        else rowGet old c := by
  induction old with
  | nil => simp [rowGet, rowHas]
  | cons p rest ih =>
    by_cases hpc : p.1 = c
    · subst hpc
      by_cases hs : strIn nk p.1 = true
      · simp [rowGet, rowHas, hs]
      · simp [rowGet, rowHas, hs]
    · by_cases hs : strIn nk p.1 = true
      · simp only [List.map_cons, if_pos hs, rowGet, rowHas]
        rw [if_neg hpc, if_neg hpc, ih]
        simp [hpc]
      · simp only [List.map_cons, if_neg hs, rowGet, rowHas]
        rw [if_neg hpc, if_neg hpc, ih]
        simp [hpc]

/-- Reading through an append: the left part masks the right. -/
theorem rowGet_append (a b : Record) (c : String) :
    rowGet (a ++ b) c
      = if rowHas a c = true then rowGet a c else rowGet b c := by
  induction a with
  | nil => simp [rowGet, rowHas]
  | cons p rest ih =>
    by_cases hpc : p.1 = c <;> simp [rowGet, rowHas, hpc, ih]

/-- The conflict update overwrites every non-key insert column with the
excluded record's value. -/
theorem rowGet_updateRow_mem (old : Record) (cols : List String) (rec : Record)
    (c : String) (h : strIn (nonKeyCols cols) c = true) :
    rowGet (updateRow old cols rec) c = rowGet rec c := by
  unfold updateRow
  rw [rowGet_append, rowHas_map_update]
  by_cases hh : rowHas old c = true
  · rw [if_pos hh, rowGet_map_update, if_pos ⟨h, hh⟩]
  · rw [if_neg hh]
    have hmem : strIn ((nonKeyCols cols).filter fun d => !(rowHas old d)) c
        = true := by
      rw [strIn_iff, List.mem_filter]
      refine ⟨(strIn_iff _ _).mp h, ?_⟩
      simp only [Bool.not_eq_true] at hh
      simp [hh]
    exact rowGet_freshRow_mem _ _ _ hmem

/-- The conflict update leaves every other column of the row unchanged. -/
theorem rowGet_updateRow_not_mem (old : Record) (cols : List String)
    (rec : Record) (c : String) (h : strIn (nonKeyCols cols) c = false) :
    rowGet (updateRow old cols rec) c = rowGet old c := by
  unfold updateRow
  rw [rowGet_append, rowHas_map_update]
  by_cases hh : rowHas old c = true
  · rw [if_pos hh, rowGet_map_update]
    rw [if_neg (fun hx => by rw [h] at hx; exact absurd hx.1 (by simp))]
  · rw [if_neg hh]
    have hnot : ¬ c ∈ (nonKeyCols cols).filter fun d => !(rowHas old d) := by
      rw [List.mem_filter]
      rintro ⟨hc1, _⟩
      have := (strIn_iff (nonKeyCols cols) c).mpr hc1
      rw [h] at this
      exact absurd this (by simp)
    have hmem : strIn ((nonKeyCols cols).filter fun d => !(rowHas old d)) c
        = false := by
      cases hsf : strIn ((nonKeyCols cols).filter fun d => !(rowHas old d)) c
      · rfl
      · exact absurd ((strIn_iff _ _).mp hsf) hnot
    rw [rowGet_freshRow_not_mem _ _ _ hmem]
    simp only [Bool.not_eq_true] at hh
    exact (rowHas_false_rowGet old c hh).symm

/-- Key presence agrees with lookup success. -/
theorem containsKey_eq_isSome (t : Table) (k : Val × Val) :
    containsKey t k = (tableFind t k).isSome := by
  induction t with
  | nil => rfl
  | cons e rest ih =>
    by_cases he : e.1 = k <;> simp [containsKey, tableFind, he, ih]

/-- Key presence agrees with membership in the key column. -/
theorem containsKey_iff_mem_keys (t : Table) (k : Val × Val) :
    containsKey t k = true ↔ k ∈ t.map fun e => e.1 := by
  induction t with
  | nil => simp [containsKey]
  | cons e rest ih =>
    simp only [containsKey, Bool.or_eq_true, decide_eq_true_eq, List.map_cons,
      List.mem_cons, ih]
    constructor
    · rintro (h | h)
      · exact Or.inl h.symm
      · exact Or.inr h
    · rintro (h | h)
      · exact Or.inl h.symm
      · exact Or.inr h

/-- Lookup through the conflict-update map over the whole table. -/
theorem tableFind_map_update (t : Table) (k : Val × Val) (cols : List String)
    (rec : Record) (q : Val × Val) :
    tableFind (t.map fun e =>
        if e.1 = k then (e.1, updateRow e.2 cols rec) else e) q
      = (tableFind t q).map fun r =>
          if q = k then updateRow r cols rec else r := by
  induction t with
  | nil => simp [tableFind]
  | cons e rest ih =>
    by_cases heq : e.1 = q
    · by_cases hek : e.1 = k
      · have hqk : q = k := heq.symm.trans hek
        simp [tableFind, heq, hek, hqk]
      · have hqk : ¬ q = k := fun h => hek (heq.trans h)
        simp [tableFind, heq, hek, hqk]
    · by_cases hek : e.1 = k
      · have hkq : ¬ k = q := fun h => heq (hek.trans h)
        have hqk : ¬ q = k := fun h => hkq h.symm
        simp [tableFind, heq, hek, hkq, hqk, ih]
      · simp [tableFind, heq, hek, ih]

/-- Lookup through an append: the left part masks the right. -/
theorem tableFind_append (t t2 : Table) (k : Val × Val) :
    tableFind (t ++ t2) k
      = match tableFind t k with
        | some r => some r
        | none => tableFind t2 k := by
  induction t with
  | nil => simp [tableFind]
  | cons e rest ih =>
    by_cases he : e.1 = k <;> simp [tableFind, he, ih]

/-- Lookup after one upsert: the upserted key maps to the updated or fresh
row, every other key is untouched. -/
theorem tableFind_upsert (t : Table) (cols : List String) (rec : Record)
    (q : Val × Val) :
    tableFind (tableUpsert t cols rec) q
      = if q = recKey rec then
          some (match tableFind t (recKey rec) with
                | some old => updateRow old cols rec
                | none => freshRow cols rec)
        else tableFind t q := by
  unfold tableUpsert
  by_cases hc : containsKey t (recKey rec) = true
  · rw [if_pos hc, tableFind_map_update]
    by_cases hq : q = recKey rec
    · subst hq
      rw [if_pos rfl]
      cases hf : tableFind t (recKey rec) with
      | none =>
        rw [containsKey_eq_isSome, hf] at hc
        exact absurd hc (by simp)
      | some old => simp [hf]
    · rw [if_neg hq]
      cases tableFind t q <;> simp [hq]
  · rw [if_neg hc, tableFind_append]
    have hf : tableFind t (recKey rec) = none := by
      cases hf2 : tableFind t (recKey rec) with
      | none => rfl
      | some old =>
        rw [containsKey_eq_isSome, hf2] at hc
        exact absurd rfl hc
    by_cases hq : q = recKey rec
    · subst hq
      rw [hf, if_pos rfl]
      simp [tableFind]
    · rw [if_neg hq]
      cases hfq : tableFind t q with
      | none =>
        have hqr : ¬ recKey rec = q := fun h => hq h.symm
        simp [tableFind, hqr]
      | some r => simp

/-- One upsert keeps the table's length when the key is present and adds a
single row otherwise. -/
theorem length_upsert (t : Table) (cols : List String) (rec : Record) :
    (tableUpsert t cols rec).length
      = if containsKey t (recKey rec) = true then t.length
        else t.length + 1 := by
  unfold tableUpsert
  by_cases hc : containsKey t (recKey rec) = true <;> simp [hc]

/-- An upsert never removes a key. -/
theorem containsKey_upsert_mono (t : Table) (cols : List String) (rec : Record)
    (k : Val × Val) (h : containsKey t k = true) :
    containsKey (tableUpsert t cols rec) k = true := by
  rw [containsKey_eq_isSome, tableFind_upsert]
  by_cases hq : k = recKey rec
  · simp [hq]
  · rw [if_neg hq, ← containsKey_eq_isSome]
    exact h

/-- The upserted record's key is present afterwards. -/
theorem containsKey_upsert_self (t : Table) (cols : List String) (rec : Record) :
    containsKey (tableUpsert t cols rec) (recKey rec) = true := by
  rw [containsKey_eq_isSome, tableFind_upsert, if_pos rfl]
  rfl

/-- The conflict-update map leaves the key column untouched. -/
theorem keys_map_update (t : Table) (k : Val × Val) (cols : List String)
    (rec : Record) :
    ((t.map fun e => if e.1 = k then (e.1, updateRow e.2 cols rec) else e).map
        fun e => e.1)
      = t.map fun e => e.1 := by
  induction t with
  | nil => rfl
  | cons e rest ih => by_cases he : e.1 = k <;> simp [he, ih]

/-- An upsert preserves distinctness of the table's keys. -/
theorem keysNodup_upsert (t : Table) (cols : List String) (rec : Record)
    (h : keysNodup t) : keysNodup (tableUpsert t cols rec) := by
  unfold keysNodup tableUpsert
  by_cases hc : containsKey t (recKey rec) = true
  · rw [if_pos hc, keys_map_update]
    exact h
  · rw [if_neg hc, List.map_append, List.nodup_append]
    refine ⟨h, by simp, ?_⟩
    intro a ha hb
    simp only [List.map_cons, List.map_nil, List.mem_singleton] at hb
    subst hb
    exact hc ((containsKey_iff_mem_keys t (recKey rec)).mpr ha)

/-- A non-key insert column is an insert column. -/
theorem strIn_nonKeyCols_sub (cols : List String) (c : String)
    (h : strIn (nonKeyCols cols) c = true) : strIn cols c = true := by
  rw [strIn_iff] at h ⊢
  exact (List.mem_filter.mp h).1

/-- A column outside the insert columns is outside the non-key insert
columns. -/
theorem strIn_nonKeyCols_of_not (cols : List String) (c : String)
    (h : strIn cols c = false) : strIn (nonKeyCols cols) c = false := by
  cases hs : strIn (nonKeyCols cols) c
  · rfl
  · rw [strIn_nonKeyCols_sub cols c hs] at h
    exact absurd h (by simp)

/-- A batch containing no record for a key leaves that key's row alone. -/
theorem batch_find_untouched (cols : List String) (recs : List Record) :
    ∀ t : Table, ∀ k : Val × Val, lastRec recs k = none →
      tableFind (batchApply cols t recs) k = tableFind t k := by
  induction recs with
  | nil => intro t k _; rfl
  | cons r rs ih =>
    intro t k h
    have hsplit : lastRec rs k = none ∧ ¬ recKey r = k := by
      simp only [lastRec] at h
      cases hls : lastRec rs k with
      | some r2 => rw [hls] at h; exact absurd h (by simp)
      | none =>
        rw [hls] at h
        refine ⟨rfl, fun hk => ?_⟩
        rw [if_pos hk] at h
        exact absurd h (by simp)
    simp only [batchApply]
    rw [ih (tableUpsert t cols r) k hsplit.1, tableFind_upsert,
      if_neg (fun hk : k = recKey r => hsplit.2 hk.symm)]

/-- After a batch, every non-key insert column of the row at a key carries
the value of the LAST record of the batch with that key. -/
theorem batch_find_last (cols : List String) (recs : List Record) :
    ∀ t : Table, ∀ k : Val × Val, ∀ rl : Record, lastRec recs k = some rl →
      ∀ c : String, strIn (nonKeyCols cols) c = true →
        optRowGet (tableFind (batchApply cols t recs) k) c = rowGet rl c := by
  induction recs with
  | nil => intro t k rl h; simp [lastRec] at h
  | cons r rs ih =>
    intro t k rl h c hcnk
    simp only [batchApply]
    cases hls : lastRec rs k with
    | some r2 =>
      have hr2 : r2 = rl := by
        simp only [lastRec] at h
        rw [hls] at h
        simpa using h
      subst hr2
      exact ih (tableUpsert t cols r) k r2 hls c hcnk
    | none =>
      have hk : recKey r = k ∧ r = rl := by
        simp only [lastRec] at h
        rw [hls] at h
        by_cases hkk : recKey r = k
        · rw [if_pos hkk] at h
          exact ⟨hkk, by simpa using h⟩
        · rw [if_neg hkk] at h
          exact absurd h (by simp)
      obtain ⟨hk1, hk2⟩ := hk
      subst hk2
      rw [batch_find_untouched cols rs (tableUpsert t cols r) k hls,
        tableFind_upsert, if_pos hk1.symm]
      cases hf : tableFind t (recKey r) with
      | some old =>
        simp only [optRowGet]
        exact rowGet_updateRow_mem old cols r c hcnk
      | none =>
        simp only [optRowGet]
        exact rowGet_freshRow_mem cols r c (strIn_nonKeyCols_sub cols c hcnk)

/-- A batch never changes a column outside the non-key insert columns of a
row that already exists. -/
theorem batch_find_frame_nonkey (cols : List String) (recs : List Record) :
    ∀ t : Table, ∀ k : Val × Val, ∀ c : String,
      strIn (nonKeyCols cols) c = false → containsKey t k = true →
        optRowGet (tableFind (batchApply cols t recs) k) c
          = optRowGet (tableFind t k) c := by
  induction recs with
  | nil => intro t k c _ _; rfl
  | cons r rs ih =>
    intro t k c hnk hck
    simp only [batchApply]
    rw [ih (tableUpsert t cols r) k c hnk (containsKey_upsert_mono t cols r k hck)]
    rw [tableFind_upsert]
    by_cases hq : k = recKey r
    · subst hq
      rw [if_pos rfl]
      cases hf : tableFind t (recKey r) with
      | none =>
        rw [containsKey_eq_isSome, hf] at hck
        exact absurd hck (by simp)
      | some old =>
        simp only [optRowGet]
        exact rowGet_updateRow_not_mem old cols r c hnk
    · rw [if_neg hq]

/-- After a batch, the key of any record of the batch is present. -/
theorem batch_contains_last (cols : List String) (recs : List Record) :
    ∀ t : Table, ∀ k : Val × Val, ∀ rl : Record, lastRec recs k = some rl →
      containsKey (batchApply cols t recs) k = true := by
  induction recs with
  | nil => intro t k rl h; simp [lastRec] at h
  | cons r rs ih =>
    intro t k rl h
    simp only [batchApply]
    cases hls : lastRec rs k with
    | some r2 => exact ih (tableUpsert t cols r) k r2 hls
    | none =>
      have hk1 : recKey r = k := by
        simp only [lastRec] at h
        rw [hls] at h
        by_cases hkk : recKey r = k
        · exact hkk
        · rw [if_neg hkk] at h
          exact absurd h (by simp)
      rw [containsKey_eq_isSome,
        batch_find_untouched cols rs (tableUpsert t cols r) k hls,
        tableFind_upsert, if_pos hk1.symm]
      rfl

/-- Every record of a batch has a last record for its key. -/
theorem lastRec_mem (recs : List Record) (r : Record) (h : r ∈ recs) :
    ∃ rl : Record, lastRec recs (recKey r) = some rl := by
  induction recs with
  | nil => simp at h
  | cons r0 rs ih =>
    rcases List.mem_cons.mp h with h0 | hmem
    · cases hls : lastRec rs (recKey r) with
      | some r2 => exact ⟨r2, by simp [lastRec, hls]⟩
      | none =>
        have hkk : recKey r0 = recKey r := by rw [h0]
        exact ⟨r0, by simp [lastRec, hls, hkk]⟩
    · obtain ⟨rl, hrl⟩ := ih hmem
      exact ⟨rl, by simp [lastRec, hrl]⟩

/-- A batch whose keys are all already present does not change the row
count. -/
theorem batch_length_all_present (cols : List String) (recs : List Record) :
    ∀ t : Table, (∀ r ∈ recs, containsKey t (recKey r) = true) →
      (batchApply cols t recs).length = t.length := by
  induction recs with
  | nil => intro t _; rfl
  | cons r rs ih =>
    intro t hall
    simp only [batchApply]
    rw [ih (tableUpsert t cols r)
      (fun r2 hr2 => containsKey_upsert_mono t cols r (recKey r2)
        (hall r2 (List.mem_cons_of_mem r hr2)))]
    rw [length_upsert, if_pos (hall r (List.mem_cons_self r rs))]

/-- A batch preserves distinctness of the table's keys. -/
theorem batch_keysNodup (cols : List String) (recs : List Record) :
    ∀ t : Table, keysNodup t → keysNodup (batchApply cols t recs) := by
  induction recs with
  | nil => intro t h; exact h
  | cons r rs ih => intro t h; exact ih (tableUpsert t cols r) (keysNodup_upsert t cols r h)

/-- One upsert does not touch a column outside the insert columns, on any
row. -/
theorem find_upsert_frame_col (t : Table) (cols : List String) (rec : Record)
    (k : Val × Val) (c : String) (h : strIn cols c = false) :
    optRowGet (tableFind (tableUpsert t cols rec) k) c
      = optRowGet (tableFind t k) c := by
  rw [tableFind_upsert]
  by_cases hq : k = recKey rec
  · subst hq
    rw [if_pos rfl]
    cases hf : tableFind t (recKey rec) with
    | some old =>
      simp only [optRowGet]
      exact rowGet_updateRow_not_mem old cols rec c (strIn_nonKeyCols_of_not cols c h)
    | none =>
      simp only [optRowGet]
      exact rowGet_freshRow_not_mem cols rec c h
  · rw [if_neg hq]

/-- C1: running _enhanced_batch_insert twice with the same record batch
leaves the table as after one run: the row count is unchanged, every column
of every row reads the same, the (symbol, datetime_index) keys stay
pairwise distinct, and after either run every non-key insert column of a
batched key holds the batched record's value (a full overwrite of the
indicator columns, never a partial merge). -/
theorem enhanced_batch_insert_idempotent (t : Table) (r0 : Record)
    (rest : List Record) (ht : keysNodup t) :
    (enhanced_batch_insert (enhanced_batch_insert t (r0 :: rest)) (r0 :: rest)).length
        = (enhanced_batch_insert t (r0 :: rest)).length
    ∧ (∀ k : Val × Val, ∀ c : String,
        optRowGet (tableFind (enhanced_batch_insert
              (enhanced_batch_insert t (r0 :: rest)) (r0 :: rest)) k) c
          = optRowGet (tableFind (enhanced_batch_insert t (r0 :: rest)) k) c)
    ∧ keysNodup (enhanced_batch_insert t (r0 :: rest))
    ∧ keysNodup (enhanced_batch_insert (enhanced_batch_insert t (r0 :: rest)) (r0 :: rest))
    ∧ (∀ k : Val × Val, ∀ rl : Record, lastRec (r0 :: rest) k = some rl →
        ∀ c : String, strIn (nonKeyCols (recKeys r0)) c = true →
          optRowGet (tableFind (enhanced_batch_insert
                (enhanced_batch_insert t (r0 :: rest)) (r0 :: rest)) k) c
              = rowGet rl c
          ∧ optRowGet (tableFind (enhanced_batch_insert t (r0 :: rest)) k) c
              = rowGet rl c) := by
  simp only [enhanced_batch_insert]
  have hall1 : ∀ r ∈ (r0 :: rest),
      containsKey (batchApply (recKeys r0) t (r0 :: rest)) (recKey r) = true := by
    intro r hr
    obtain ⟨rl, hrl⟩ := lastRec_mem (r0 :: rest) r hr
    exact batch_contains_last (recKeys r0) (r0 :: rest) t (recKey r) rl hrl
  refine ⟨?_, ?_, ?_, ?_, ?_⟩
  · exact batch_length_all_present (recKeys r0) (r0 :: rest)
      (batchApply (recKeys r0) t (r0 :: rest)) hall1
  · intro k c
    cases hlr : lastRec (r0 :: rest) k with
    | none =>
      rw [batch_find_untouched (recKeys r0) (r0 :: rest)
        (batchApply (recKeys r0) t (r0 :: rest)) k hlr]
    | some rl =>
      cases hcnk : strIn (nonKeyCols (recKeys r0)) c with
      | true =>
        rw [batch_find_last (recKeys r0) (r0 :: rest)
            (batchApply (recKeys r0) t (r0 :: rest)) k rl hlr c hcnk,
          batch_find_last (recKeys r0) (r0 :: rest) t k rl hlr c hcnk]
      | false =>
        exact batch_find_frame_nonkey (recKeys r0) (r0 :: rest)
          (batchApply (recKeys r0) t (r0 :: rest)) k c hcnk
          (batch_contains_last (recKeys r0) (r0 :: rest) t k rl hlr)
  · exact batch_keysNodup (recKeys r0) (r0 :: rest) t ht
  · exact batch_keysNodup (recKeys r0) (r0 :: rest)
      (batchApply (recKeys r0) t (r0 :: rest))
      (batch_keysNodup (recKeys r0) (r0 :: rest) t ht)
  · intro k rl hlr c hcnk
    exact ⟨batch_find_last (recKeys r0) (r0 :: rest)
        (batchApply (recKeys r0) t (r0 :: rest)) k rl hlr c hcnk,
      batch_find_last (recKeys r0) (r0 :: rest) t k rl hlr c hcnk⟩

/-- C1 witness: upserting one concrete record twice into the empty table
keeps the row count of the single run. -/
theorem enhanced_batch_insert_idempotent_witness :
    keysNodup ([] : Table)
    ∧ (enhanced_batch_insert (enhanced_batch_insert ([] : Table)
          [[("symbol", Val.str "A"), ("datetime_index", Val.num 1),
            ("close", Val.num 10)]])
        [[("symbol", Val.str "A"), ("datetime_index", Val.num 1),
          ("close", Val.num 10)]]).length
      = (enhanced_batch_insert ([] : Table)
          [[("symbol", Val.str "A"), ("datetime_index", Val.num 1),
            ("close", Val.num 10)]]).length :=
  ⟨by simp [keysNodup],
   (enhanced_batch_insert_idempotent []
      [("symbol", Val.str "A"), ("datetime_index", Val.num 1),
       ("close", Val.num 10)] [] (by simp [keysNodup])).1⟩

/-- C8: the columns written by _enhanced_batch_insert are exactly the keys
of the FIRST record of the batch: for any column name the first record does
not bind, the value read at that column is unchanged for every key — a
field carried only by a later record is never written, and on a conflicting
existing row every table column outside the first record's keys keeps its
previous value. -/
theorem enhanced_batch_insert_frame (t : Table) (r0 : Record)
    (rest : List Record) (c : String) (hc : strIn (recKeys r0) c = false)
    (k : Val × Val) :
    optRowGet (tableFind (enhanced_batch_insert t (r0 :: rest)) k) c
      = optRowGet (tableFind t k) c := by
  have hgen : ∀ recs : List Record, ∀ t2 : Table,
      optRowGet (tableFind (batchApply (recKeys r0) t2 recs) k) c
        = optRowGet (tableFind t2 k) c := by
    intro recs
    induction recs with
    | nil => intro t2; rfl
    | cons r rs ih =>
      intro t2
      simp only [batchApply]
      rw [ih (tableUpsert t2 (recKeys r0) r),
        find_upsert_frame_col t2 (recKeys r0) r k c hc]
  simp only [enhanced_batch_insert]
  exact hgen (r0 :: rest) t

/-- C8 witness: a column absent from the first record reads the same (NULL)
before and after the batch, at the batched key. -/
theorem enhanced_batch_insert_frame_witness :
    strIn (recKeys [("symbol", Val.str "A"), ("datetime_index", Val.num 1),
        ("close", Val.num 10)]) "extra" = false
    ∧ optRowGet (tableFind (enhanced_batch_insert ([] : Table)
          [[("symbol", Val.str "A"), ("datetime_index", Val.num 1),
            ("close", Val.num 10)]]) (Val.str "A", Val.num 1)) "extra"
      = optRowGet (tableFind ([] : Table) (Val.str "A", Val.num 1)) "extra" :=
  ⟨by simp [strIn, recKeys],
   enhanced_batch_insert_frame []
     [("symbol", Val.str "A"), ("datetime_index", Val.num 1),
      ("close", Val.num 10)] [] "extra" (by simp [strIn, recKeys])
     (Val.str "A", Val.num 1)⟩

end StockMatrix
